import Mathlib

/-!
Verification of the 2048 expectimax search engine in `src/search2048/src/lib.rs`.

Embedding conventions:
* A board is a 4×4 grid of `u16` tile face values (0, 2, 4, …), modelled as
  `Fin 4 → Fin 4 → ℕ`.  `u16` overflow is modelled explicitly: the only
  arithmetic that can overflow is the merge `tiles[i] * 2` in `compress_line`,
  rendered as `x * 2 % 65536` (release-mode wrapping semantics).
* All `f64` score arithmetic is modelled exactly over `ℚ`.  Every constant in
  the source is a decimal literal, rendered as the corresponding rational.
  `(v as f64).log2()` is exact for the power-of-two face values the engine
  documents as its input domain; we use `Nat.log2` (floor), which agrees with
  it there.
* The thread-local transposition table `TT` is threaded through the search as
  an explicit association list in evaluation order; `HashMap::insert`
  (replace) and the size-triggered `clear` are reproduced literally.
* Rust's stable `sort` on vectors of distinct, totally ordered tuples has the
  unique sorted arrangement as result, which `List.insertionSort` computes.
-/

set_option maxRecDepth 20000

/-- A 4×4 board of `u16` tile face values (`type Board = [[u16; 4]; 4]`). -/
def Board : Type := Fin 4 → Fin 4 → ℕ

instance : DecidableEq Board := inferInstanceAs (DecidableEq (Fin 4 → Fin 4 → ℕ))

/-- Bounds-checked cell read used where the source indexes with loop counters;
all uses are in range, matching the source's `board[r][c]`. -/
def bget (b : Board) (r c : ℕ) : ℕ :=
  if h : r < 4 ∧ c < 4 then b ⟨r, h.1⟩ ⟨c, h.2⟩ else 0

/-- Read entry `i` of a length-4 list (the reassembly `nb[r][i] = res[r]`). -/
def lget (l : List ℕ) (i : Fin 4) : ℕ := l.getD i 0

/-- The merge scan of `compress_line` (lines 87–100): walk the compacted
tiles left to right; an adjacent equal pair becomes one tile `tiles[i] * 2`
(u16 wrap-around) and its face value is added to the score. -/
def mergePairs : List ℕ → List ℕ × ℚ
  | [] => ([], 0)
  | [x] => ([x], 0)
  | x :: y :: rest =>
    if x = y then
      ((x * 2 % 65536) :: (mergePairs rest).1, ((x * 2 % 65536 : ℕ) : ℚ) + (mergePairs rest).2)
    else
      (x :: (mergePairs (y :: rest)).1, (mergePairs (y :: rest)).2)

/-- The face values of the tiles produced by merges in the `mergePairs` scan,
in scan order (the tiles whose values `score` accumulates). -/
def mergedOutputs : List ℕ → List ℕ
  | [] => []
  | [_] => []
  | x :: y :: rest =>
    if x = y then (x * 2 % 65536) :: mergedOutputs rest else mergedOutputs (y :: rest)

/-- `compress_line` (lines 81–102): compact non-zero cells leftward, merge
adjacent equal pairs, zero-pad back to 4 cells; also return the merge score. -/
def compress_line (line : List ℕ) : List ℕ × ℚ :=
  let tiles := line.filter (fun v => v ≠ 0)
  ((mergePairs tiles).1 ++ List.replicate (4 - (mergePairs tiles).1.length) 0,
   (mergePairs tiles).2)

/-- Row `r` of the board, read left to right (`nb[i]`). -/
def rowList (b : Board) (r : Fin 4) : List ℕ := [b r 0, b r 1, b r 2, b r 3]

/-- Column `c` of the board, read top to bottom (`[nb[0][i], …, nb[3][i]]`). -/
def colList (b : Board) (c : Fin 4) : List ℕ := [b 0 c, b 1 c, b 2 c, b 3 c]

/-- The slide result of a line for the leftward scan (`compress_line(..).0`). -/
def leftRes (l : List ℕ) : List ℕ := (compress_line l).1

/-- The slide result for the mirrored scan: reverse, compress, reverse back
(the `line = [nb[i][3], …]` / `rev = [res[3], …]` pattern of lines 118–124 and
134–140). -/
def rightRes (l : List ℕ) : List ℕ := ((compress_line l.reverse).1).reverse

/-- Rebuild a board by applying a line transform to each column
(`for r in 0..4 { nb[r][i] = res[r] }`). -/
def colsMap (f : List ℕ → List ℕ) (b : Board) : Board :=
  fun r c => lget (f (colList b c)) r

/-- Rebuild a board by applying a line transform to each row (`nb[i] = res`). -/
def rowsMap (f : List ℕ → List ℕ) (b : Board) : Board :=
  fun r c => lget (f (rowList b r)) c

/-- The `moved` flag accumulated over the four columns
(`if res != line { moved = true; }`). -/
def movedCols (f : List ℕ → List ℕ) (b : Board) : Bool :=
  decide (∃ c : Fin 4, f (colList b c) ≠ colList b c)

/-- The `moved` flag accumulated over the four rows. -/
def movedRows (f : List ℕ → List ℕ) (b : Board) : Bool :=
  decide (∃ r : Fin 4, f (rowList b r) ≠ rowList b r)

/-- `simulate_move` (lines 104–146): apply direction `0=up, 1=down, 2=left,
3=right`, returning the new board, the total merge score, and whether any
line changed.  An out-of-range direction matches the source's `_ => {}` arm
(board untouched, score 0, not moved). -/
def simulate_move (b : Board) (dir : ℕ) : Board × ℚ × Bool :=
  if dir = 0 then
    (colsMap leftRes b,
     (compress_line (colList b 0)).2 + (compress_line (colList b 1)).2 +
       (compress_line (colList b 2)).2 + (compress_line (colList b 3)).2,
     movedCols leftRes b)
  else if dir = 1 then
    (colsMap rightRes b,
     (compress_line (colList b 0).reverse).2 + (compress_line (colList b 1).reverse).2 +
       (compress_line (colList b 2).reverse).2 + (compress_line (colList b 3).reverse).2,
     movedCols rightRes b)
  else if dir = 2 then
    (rowsMap leftRes b,
     (compress_line (rowList b 0)).2 + (compress_line (rowList b 1)).2 +
       (compress_line (rowList b 2)).2 + (compress_line (rowList b 3)).2,
     movedRows leftRes b)
  else if dir = 3 then
    (rowsMap rightRes b,
     (compress_line (rowList b 0).reverse).2 + (compress_line (rowList b 1).reverse).2 +
       (compress_line (rowList b 2).reverse).2 + (compress_line (rowList b 3).reverse).2,
     movedRows rightRes b)
  else (b, 0, false)

/-- Total of all sixteen face values on the board, row by row. -/
def sumBoard (b : Board) : ℕ :=
  (rowList b 0).sum + (rowList b 1).sum + (rowList b 2).sum + (rowList b 3).sum

/-- Sum of the face values of the merged result tiles of one line's slide
(the tiles `score` accumulates in `compress_line`). -/
def lineMergeScore (l : List ℕ) : ℚ :=
  ((mergedOutputs (l.filter (fun v => v ≠ 0))).map (fun n => (n : ℚ))).sum

/-- The per-direction sum of `lineMergeScore` over the lines the move slides,
mirroring the line decomposition of `simulate_move`. -/
def moveScoreSpec (b : Board) (dir : ℕ) : ℚ :=
  if dir = 0 then
    lineMergeScore (colList b 0) + lineMergeScore (colList b 1) +
      lineMergeScore (colList b 2) + lineMergeScore (colList b 3)
  else if dir = 1 then
    lineMergeScore (colList b 0).reverse + lineMergeScore (colList b 1).reverse +
      lineMergeScore (colList b 2).reverse + lineMergeScore (colList b 3).reverse
  else if dir = 2 then
    lineMergeScore (rowList b 0) + lineMergeScore (rowList b 1) +
      lineMergeScore (rowList b 2) + lineMergeScore (rowList b 3)
  else if dir = 3 then
    lineMergeScore (rowList b 0).reverse + lineMergeScore (rowList b 1).reverse +
      lineMergeScore (rowList b 2).reverse + lineMergeScore (rowList b 3).reverse
  else 0

/-- Concrete board used as witness input: the scenario row `[2,2,4,4]` on an
otherwise empty board. -/
def wBoard : Board := ![![2, 2, 4, 4], ![0, 0, 0, 0], ![0, 0, 0, 0], ![0, 0, 0, 0]]

/-- The sixteen cell coordinates in row-major scan order, as iterated by the
source's `for r in 0..4 { for c in 0..4 { … } }` loops. -/
def allCells : List (ℕ × ℕ) :=
  [(0, 0), (0, 1), (0, 2), (0, 3),
   (1, 0), (1, 1), (1, 2), (1, 3),
   (2, 0), (2, 1), (2, 2), (2, 3),
   (3, 0), (3, 1), (3, 2), (3, 3)]

/-- Structural-fuel computation of the floor of log2; with `fuel ≥ n` it
agrees with `Nat.log2` (theorem `nlog2_eq` below). -/
def log2fuel : ℕ → ℕ → ℕ
  | 0, _ => 0
  | fuel + 1, n => if n ≥ 2 then log2fuel fuel (n / 2) + 1 else 0

/-- Floor of log2 (agrees with `Nat.log2`, see `nlog2_eq`). -/
def nlog2 (n : ℕ) : ℕ := log2fuel n n

/-- `log2v` (lines 75–79): 0 for an empty cell, else `(v as f64).log2()`.
`f64` log2 is exact on the powers of two that form the engine's documented
input domain, where it coincides with the floor log2. -/
def log2v (v : ℕ) : ℚ := if v = 0 then 0 else (nlog2 v : ℚ)

/-- The eight snake weight matrices (lines 10–51), each decimal constant
rendered as the rational `n / 1000`. -/
def WEIGHT_MATRICES : List (List (List ℚ)) :=
  [[[1000/1000, 1500/1000, 2250/1000, 3375/1000],
    [17086/1000, 11391/1000, 7594/1000, 5063/1000],
    [25629/1000, 38443/1000, 57665/1000, 86498/1000],
    [437894/1000, 291929/1000, 194620/1000, 129746/1000]],
   [[3375/1000, 2250/1000, 1500/1000, 1000/1000],
    [5063/1000, 7594/1000, 11391/1000, 17086/1000],
    [86498/1000, 57665/1000, 38443/1000, 25629/1000],
    [129746/1000, 194620/1000, 291929/1000, 437894/1000]],
   [[437894/1000, 291929/1000, 194620/1000, 129746/1000],
    [25629/1000, 38443/1000, 57665/1000, 86498/1000],
    [17086/1000, 11391/1000, 7594/1000, 5063/1000],
    [1000/1000, 1500/1000, 2250/1000, 3375/1000]],
   [[129746/1000, 194620/1000, 291929/1000, 437894/1000],
    [86498/1000, 57665/1000, 38443/1000, 25629/1000],
    [5063/1000, 7594/1000, 11391/1000, 17086/1000],
    [3375/1000, 2250/1000, 1500/1000, 1000/1000]],
   [[437894/1000, 25629/1000, 17086/1000, 1000/1000],
    [291929/1000, 38443/1000, 11391/1000, 1500/1000],
    [194620/1000, 57665/1000, 7594/1000, 2250/1000],
    [129746/1000, 86498/1000, 5063/1000, 3375/1000]],
   [[1000/1000, 17086/1000, 25629/1000, 437894/1000],
    [1500/1000, 11391/1000, 38443/1000, 291929/1000],
    [2250/1000, 7594/1000, 57665/1000, 194620/1000],
    [3375/1000, 5063/1000, 86498/1000, 129746/1000]],
   [[129746/1000, 86498/1000, 5063/1000, 3375/1000],
    [194620/1000, 57665/1000, 7594/1000, 2250/1000],
    [291929/1000, 38443/1000, 11391/1000, 1500/1000],
    [437894/1000, 25629/1000, 17086/1000, 1000/1000]],
   [[3375/1000, 5063/1000, 86498/1000, 129746/1000],
    [2250/1000, 7594/1000, 57665/1000, 194620/1000],
    [1500/1000, 11391/1000, 38443/1000, 291929/1000],
    [1000/1000, 17086/1000, 25629/1000, 437894/1000]]]

/-- Entry `(r, c)` of a weight matrix (`w[r][c]`; always in range). -/
def wget (w : List (List ℚ)) (r c : ℕ) : ℚ := (w.getD r []).getD c 0

/-- One snake orientation's sum `Σ lv·lv·w[r][c]` (lines 152–158). -/
def snakeSum (b : Board) (w : List (List ℚ)) : ℚ :=
  (allCells.map (fun p =>
    log2v (bget b p.1 p.2) * log2v (bget b p.1 p.2) * wget w p.1 p.2)).sum

/-- Term 1 of `evaluate` (lines 149–160): the best of the 8 snake sums.
The `f64::NEG_INFINITY` seed is absorbed by the first comparison, so the
result is the running maximum started from the first matrix's sum. -/
def snakeScore (b : Board) : ℚ :=
  match WEIGHT_MATRICES.map (snakeSum b) with
  | [] => 0
  | s :: rest => rest.foldl (fun acc t => if t > acc then t else acc) s

/-- Number of empty cells (line 163). -/
def emptyCount (b : Board) : ℕ :=
  (allCells.filter (fun p => decide (bget b p.1 p.2 = 0))).length

/-- Term 2 of `evaluate` (lines 162–169): the empty-cell score table. -/
def emptyScore (b : Board) : ℚ :=
  match emptyCount b with
  | 0 => -800000
  | 1 => 3000
  | 2 => 12000
  | e => (e : ℚ) * (e : ℚ) * 2000

/-- The maximum tile face value (line 172); the fold from 0 equals
`iter().max()` because face values are non-negative. -/
def maxTile (b : Board) : ℕ :=
  (allCells.map (fun p => bget b p.1 p.2)).foldl max 0

/-- Whether the maximum tile sits in one of the four corners (lines 174–175). -/
def maxInCorner (b : Board) : Bool :=
  [bget b 0 0, bget b 0 3, bget b 3 0, bget b 3 3].contains (maxTile b)

/-- Whether the maximum tile sits on the outer edge (lines 180–184). -/
def maxOnEdge (b : Board) : Bool :=
  ((List.range 4).any fun c => bget b 0 c == maxTile b) ||
    ((List.range 4).any fun c => bget b 3 c == maxTile b) ||
    ((List.range 4).any fun r => bget b r 0 == maxTile b) ||
    ((List.range 4).any fun r => bget b r 3 == maxTile b)

/-- Term 3 of `evaluate` (lines 171–187): corner bonus / edge and interior
penalty for the maximum tile, quadratic in its rank. -/
def cornerScore (b : Board) : ℚ :=
  let mtl := log2v (maxTile b)
  if maxInCorner b then mtl * mtl * 500
  else if maxOnEdge b then -(mtl * mtl * 1000)
  else -(mtl * mtl * 3000)

/-- The scatter contribution of one ordered pair of high-tile positions
(lines 201–213): equal values at taxicab distance ≠ 1 are penalised. -/
def scatterTerm (b : Board) (p q : ℕ × ℕ) : ℚ :=
  if bget b p.1 p.2 = bget b q.1 q.2 ∧
      ((p.1 : ℤ) - (q.1 : ℤ)).natAbs + ((p.2 : ℤ) - (q.2 : ℤ)).natAbs ≠ 1 then
    -(log2v (bget b p.1 p.2) * log2v (bget b p.1 p.2) * 2000)
  else 0

/-- The double loop `for i, for j in (i+1)..` over high-tile positions. -/
def scatterPairs (b : Board) : List (ℕ × ℕ) → ℚ
  | [] => 0
  | p :: rest => (rest.map (fun q => scatterTerm b p q)).sum + scatterPairs b rest

/-- Term 4 of `evaluate` (lines 189–214): penalty for non-adjacent duplicate
tiles with face value ≥ 64, collected in row-major scan order. -/
def scatterScore (b : Board) : ℚ :=
  scatterPairs b (allCells.filter (fun p => decide (bget b p.1 p.2 ≥ 64)))

/-- Model of `f64::max` on the exact rational scores. -/
def qmax (x y : ℚ) : ℚ := if x < y then y else x

/-- Model of `f64::abs` on the exact rational scores. -/
def qabs (x : ℚ) : ℚ := if x < 0 then -x else x

/-- The `inc`/`dec` accumulation over one line of log-values followed by
`inc.max(dec)` (lines 218–227). -/
def monoLine (l : List ℚ) : ℚ :=
  let t := (l.zip l.tail).foldl
    (fun (acc : ℚ × ℚ) pq =>
      if pq.1 > pq.2 then (acc.1, acc.2 + (pq.2 - pq.1)) else (acc.1 + (pq.1 - pq.2), acc.2))
    (0, 0)
  qmax t.1 t.2

/-- Term 5 of `evaluate` (lines 216–239): monotonicity over rows then
columns. -/
def monoScore (b : Board) : ℚ :=
  monoLine ((rowList b 0).map log2v) + monoLine ((rowList b 1).map log2v) +
    monoLine ((rowList b 2).map log2v) + monoLine ((rowList b 3).map log2v) +
    (monoLine ((colList b 0).map log2v) + monoLine ((colList b 1).map log2v) +
      monoLine ((colList b 2).map log2v) + monoLine ((colList b 3).map log2v))

/-- Term 6 of `evaluate` (lines 241–256): smoothness between horizontally and
vertically adjacent non-empty tiles. -/
def smoothScore (b : Board) : ℚ :=
  ((allCells.filter (fun p => decide (p.2 < 3))).map (fun p =>
    if bget b p.1 p.2 ≠ 0 ∧ bget b p.1 (p.2 + 1) ≠ 0 then
      -(qabs (log2v (bget b p.1 p.2) - log2v (bget b p.1 (p.2 + 1))))
    else 0)).sum +
  ((allCells.filter (fun p => decide (p.1 < 3))).map (fun p =>
    if bget b p.1 p.2 ≠ 0 ∧ bget b (p.1 + 1) p.2 ≠ 0 then
      -(qabs (log2v (bget b p.1 p.2) - log2v (bget b (p.1 + 1) p.2)))
    else 0)).sum

/-- Term 7 of `evaluate` (lines 258–270): merge potential of adjacent equal
tiles, super-linear for tiles ≥ 256. -/
def mergesScore (b : Board) : ℚ :=
  (allCells.map (fun p =>
    let v := bget b p.1 p.2
    if v = 0 then 0
    else
      let lv := log2v v
      let weight := if v ≥ 256 then lv * lv * lv else lv * lv
      (if p.2 + 1 < 4 ∧ bget b p.1 (p.2 + 1) = v then weight else 0) +
        (if p.1 + 1 < 4 ∧ bget b (p.1 + 1) p.2 = v then weight else 0))).sum

/-- First in-bounds orthogonal neighbor holding `target`, probed in the
source's order `[(-1,0),(1,0),(0,-1),(0,1)]` (lines 288–303). -/
def findNeighbor (b : Board) (r c target : ℕ) : Option (ℕ × ℕ) :=
  (([((-1 : ℤ), (0 : ℤ)), (1, 0), (0, -1), (0, 1)]).filterMap (fun d =>
    let nr := (r : ℤ) + d.1
    let nc := (c : ℤ) + d.2
    if 0 ≤ nr ∧ nr < 4 ∧ 0 ≤ nc ∧ nc < 4 ∧ bget b nr.toNat nc.toNat = target then
      some (nr.toNat, nc.toNat)
    else none)).head?

/-- The `'chain` loop (lines 285–305), returning (chain length, bonus).
`cur_val` strictly halves every iteration, so running with structural fuel
initially equal to `cur_val` reproduces the loop exactly: whenever the fuel
hits 0 the invariant `cur_val ≤ fuel` forces `target = cur_val / 2 = 0`,
which is precisely the loop's exit condition. -/
def chainGo (b : Board) : ℕ → ℕ → ℕ → ℕ → ℕ × ℚ
  | 0, _, _, _ => (0, 0)
  | fuel + 1, r, c, v =>
    let target := v / 2
    if target = 0 then (0, 0)
    else
      match findNeighbor b r c target with
      | some rc =>
        let t := chainGo b fuel rc.1 rc.2 target
        (t.1 + 1, log2v target * log2v target * 500 + t.2)
      | none => (0, 0)

/-- The corner loop of term 8 (lines 276–307): try each corner holding the
maximum tile; stop at the first one with a non-empty chain.  A corner whose
chain has length 0 contributes bonus 0, exactly as in the source. -/
def chainBonusLoop (b : Board) (mt : ℕ) : List (ℕ × ℕ) → ℚ
  | [] => 0
  | p :: rest =>
    if bget b p.1 p.2 ≠ mt then chainBonusLoop b mt rest
    else
      let t := chainGo b mt p.1 p.2 mt
      if t.1 > 0 then t.2 else chainBonusLoop b mt rest

/-- Term 8 of `evaluate` (lines 272–308): descending-chain bonus from a
corner-anchored maximum tile of face value ≥ 64. -/
def chainScore (b : Board) : ℚ :=
  if maxInCorner b = true ∧ maxTile b ≥ 64 then
    chainBonusLoop b (maxTile b) [(0, 0), (0, 3), (3, 0), (3, 3)]
  else 0

/-- `evaluate` (lines 148–312): the weighted combination of the eight terms. -/
def evaluate (b : Board) : ℚ :=
  snakeScore b * 5 + emptyScore b + cornerScore b + scatterScore b +
    monoScore b * 600 + smoothScore b * 250 + mergesScore b * 800 + chainScore b

/-- `board_hash` (lines 62–73): pack the 16 truncated log2 values into
disjoint nibbles.  `(v as f64).log2() as u64` truncates toward zero, which is
`Nat.log2` on every positive input. -/
def board_hash (b : Board) : ℕ :=
  allCells.foldl (fun h p =>
    let v := bget b p.1 p.2
    let bits := if v = 0 then 0 else nlog2 v
    h ||| ((bits &&& 15) <<< ((p.1 * 4 + p.2) * 4))) 0

/-- The transposition table (line 57–60): board hash → (depth, score),
threaded explicitly in evaluation order.  Keys are unique by construction of
`ttInsert`. -/
def TT : Type := List (ℕ × ℕ × ℚ)

/-- Lookup of `tt.get(&h)`. -/
def ttFind (tt : TT) (h : ℕ) : Option (ℕ × ℚ) :=
  (tt.find? (fun e => e.1 == h)).map (fun e => e.2)

/-- The guarded cache read (lines 321–328): a stored entry is used only when
its stored depth is at least the currently requested depth. -/
def ttGet (tt : TT) (h depth : ℕ) : Option ℚ :=
  match ttFind tt h with
  | some ds => if ds.1 ≥ depth then some ds.2 else none
  | none => none

/-- `t.insert(h, (depth, result))` followed by the size-triggered wholesale
`clear` (lines 383–390).  `HashMap::insert` replaces any entry at the same
key. -/
def ttInsert (tt : TT) (h depth : ℕ) (s : ℚ) : TT :=
  let t := (h, depth, s) :: tt.filter (fun e => e.1 != h)
  if t.length > 2 ^ 21 then [] else t

/-- `MAX_CHANCE_CELLS` (line 53): the cap on chance-node branching cells. -/
def MAX_CHANCE_CELLS : ℕ := 6

/-- The empty cells in row-major scan order (lines 341–348). -/
def emptyCells (b : Board) : List (ℕ × ℕ) :=
  allCells.filter (fun p => decide (bget b p.1 p.2 = 0))

/-- Number of in-bounds orthogonal neighbors holding a tile `> 0`, probed in
the source's order `[(0,1),(0,-1),(1,0),(-1,0)]` (lines 353–362). -/
def adjCount (b : Board) (r c : ℕ) : ℕ :=
  (([((0 : ℤ), (1 : ℤ)), (0, -1), (1, 0), (-1, 0)]).filter (fun d =>
    let nr := (r : ℤ) + d.1
    let nc := (c : ℤ) + d.2
    decide (0 ≤ nr ∧ nr < 4 ∧ 0 ≤ nc ∧ nc < 4 ∧ bget b nr.toNat nc.toNat > 0))).length

/-- The sort key `(-adj, r, c)` attached to each empty cell (line 363). -/
def scoredCells (b : Board) : List (ℤ × ℕ × ℕ) :=
  (emptyCells b).map (fun p => (-(adjCount b p.1 p.2 : ℤ), p.1, p.2))

/-- Lexicographic ≤ on the sort keys: the `Ord` of a Rust
`(i32, usize, usize)` tuple, as used by `scored.sort()`. -/
def ttleProp (a b : ℤ × ℕ × ℕ) : Prop :=
  a.1 < b.1 ∨ (a.1 = b.1 ∧ (a.2.1 < b.2.1 ∨ (a.2.1 = b.2.1 ∧ a.2.2 ≤ b.2.2)))

instance : DecidableRel ttleProp := fun a b => by unfold ttleProp; infer_instance

instance : IsTotal (ℤ × ℕ × ℕ) ttleProp where
  total a b := by
    obtain ⟨a1, a2, a3⟩ := a
    obtain ⟨b1, b2, b3⟩ := b
    unfold ttleProp
    dsimp only
    omega

instance : IsTrans (ℤ × ℕ × ℕ) ttleProp where
  trans a b c hab hbc := by
    obtain ⟨a1, a2, a3⟩ := a
    obtain ⟨b1, b2, b3⟩ := b
    obtain ⟨c1, c2, c3⟩ := c
    unfold ttleProp at hab hbc ⊢
    dsimp only at hab hbc ⊢
    omega

instance : IsAntisymm (ℤ × ℕ × ℕ) ttleProp where
  antisymm a b hab hba := by
    obtain ⟨a1, a2, a3⟩ := a
    obtain ⟨b1, b2, b3⟩ := b
    unfold ttleProp at hab hba
    dsimp only at hab hba
    simp only [Prod.mk.injEq]
    omega

/-- `scored.sort()` (line 365): Rust's stable sort of distinct, totally
ordered keys yields the unique sorted arrangement, computed here by
`List.insertionSort`. -/
def sortedScored (b : Board) : List (ℤ × ℕ × ℕ) :=
  List.insertionSort ttleProp (scoredCells b)

/-- The chance-node cell selection (lines 352–369): all empty cells, unless
there are more than `MAX_CHANCE_CELLS` of them, in which case the first
`MAX_CHANCE_CELLS` cells of the sorted key list. -/
def chanceCells (b : Board) : List (ℕ × ℕ) :=
  if (emptyCells b).length > MAX_CHANCE_CELLS then
    ((sortedScored b).take MAX_CHANCE_CELLS).map (fun t => (t.2.1, t.2.2))
  else emptyCells b

/-- Place face value `v` at cell `(r, c)` (`nb[r][c] = val`). -/
def bset (b : Board) (r c v : ℕ) : Board :=
  fun i j => if i.val = r ∧ j.val = c then v else b i j

/-- The spawn loop of the chance node (lines 371–378): each selected cell
branches into a face-2 tile with weight 9/10 and a face-4 tile with weight
1/10, the recursion `f` being the Max state at depth−1, with the
transposition table threaded in evaluation order. -/
def chanceLoop (f : Board → TT → ℚ × TT) (b : Board) :
    List (ℕ × ℕ) → ℚ → TT → ℚ × TT
  | [], total, tt => (total, tt)
  | p :: rest, total, tt =>
    let e2 := f (bset b p.1 p.2 2) tt
    let e4 := f (bset b p.1 p.2 4) e2.2
    chanceLoop f b rest (total + 9/10 * e2.1 + 1/10 * e4.1) e4.2

/-- The move loop of the max node (lines 332–338): try the four directions in
order, keeping the best value; `best` is `none` while still at the
`NEG_INFINITY` seed. -/
def maxLoop (f : Board → TT → ℚ × TT) (b : Board) :
    List ℕ → Option ℚ → TT → Option ℚ × TT
  | [], best, tt => (best, tt)
  | d :: ds, best, tt =>
    let m := simulate_move b d
    if m.2.2 then
      let e := f m.1 tt
      let v := e.1 + m.2.1
      let best2 := match best with
        | none => some v
        | some bv => if v > bv then some v else some bv
      maxLoop f b ds best2 e.2
    else maxLoop f b ds best tt

/-- `expectimax` (lines 314–394): depth 0 returns the static evaluation; a
max node maximises over the moves that change the board, falling back to the
static evaluation of a stuck board; a chance node first consults the
transposition table, returns the static evaluation when no cell is empty, and
otherwise averages the spawn outcomes over the selected cells and stores the
result. -/
def expectimax : Board → ℕ → Bool → TT → ℚ × TT
  | b, 0, _, tt => (evaluate b, tt)
  | b, depth + 1, true, tt =>
    let r := maxLoop (fun nb t => expectimax nb depth false t) b [0, 1, 2, 3] none tt
    match r.1 with
    | none => (evaluate b, r.2)
    | some v => (v, r.2)
  | b, depth + 1, false, tt =>
    match ttGet tt (board_hash b) (depth + 1) with
    | some s => (s, tt)
    | none =>
      if (emptyCells b).isEmpty then (evaluate b, tt)
      else
        let cells := chanceCells b
        let t := chanceLoop (fun nb tt1 => expectimax nb depth true tt1) b cells 0 tt
        let result := t.1 / (cells.length : ℚ)
        (result, ttInsert t.2 (board_hash b) (depth + 1) result)

/-- Descending order on `(score, direction)` pairs: the comparator
`|a, b| b.0.partial_cmp(&a.0)` of line 421 (scores are never NaN here). -/
def dsc (a b : ℚ × ℕ) : Prop := b.1 ≤ a.1

instance : DecidableRel dsc := fun a b => inferInstanceAs (Decidable (b.1 ≤ a.1))

instance : IsTotal (ℚ × ℕ) dsc where
  total a b := le_total b.1 a.1

instance : IsTrans (ℚ × ℕ) dsc where
  trans _ _ _ hab hbc := le_trans hbc hab

/-- The move loop of `search_ranked_moves` (lines 414–420): for each
direction in order, skip it if the board does not change, else search the
resulting chance state at the caller's depth and record the total score. -/
def searchLoop (b : Board) (depth : ℕ) : List ℕ → TT → List (ℚ × ℕ) × TT
  | [], tt => ([], tt)
  | d :: ds, tt =>
    let m := simulate_move b d
    if m.2.2 then
      let e := expectimax m.1 depth false tt
      let rest := searchLoop b depth ds e.2
      ((e.1 + m.2.1, d) :: rest.1, rest.2)
    else searchLoop b depth ds tt

/-- `search_ranked_moves` (lines 399–431): clear the transposition table,
collect the legal moves with their searched scores, and sort them in
descending score order (Rust's stable `sort_by`, computed by
`List.insertionSort` with the descending comparator).  The returned count is
the length of this list. -/
def search_ranked_moves (b : Board) (depth : ℕ) (tt0 : TT) : List (ℚ × ℕ) :=
  let cleared : TT := []
  List.insertionSort dsc (searchLoop b depth [0, 1, 2, 3] cleared).1

/-- Modelled from the spec: the count of distinct non-zero tile ranks on the
board (the adaptive-depth policy of spec §4.4 references this quantity; the
source file has no corresponding function). -/
def distinctRanks (b : Board) : ℕ :=
  (((allCells.map (fun p => bget b p.1 p.2)).filter (fun v => decide (v ≠ 0))).dedup).length

/-- The directions, in the fixed order `0=up, 1=down, 2=left, 3=right`, whose
move changes the board (the directions `search_ranked_moves` does not skip). -/
def legalDirs (b : Board) : List ℕ :=
  [0, 1, 2, 3].filter (fun d => (simulate_move b d).2.2)

/-- Concrete full board with exactly 5 distinct non-zero ranks
(2, 4, 8, 16, 32), whose only legal moves are Left and Right. -/
def B5 : Board := ![![2, 4, 2, 4], ![4, 8, 16, 32], ![2, 32, 8, 16], ![4, 16, 16, 8]]

/-- Concrete board with 13 empty cells: tiles at (0,0), (0,2) and (1,1), so
the empty cell (0,1) has all three of its orthogonal neighbors occupied while
the empty cell (3,3) has none. -/
def B3 : Board := ![![2, 0, 2, 0], ![0, 2, 0, 0], ![0, 0, 0, 0], ![0, 0, 0, 0]]

/-- Concrete completely full board on which no direction changes any row or
column (no zeros, no adjacent equal tiles). -/
def fullBoard : Board := ![![2, 4, 2, 4], ![4, 2, 4, 2], ![2, 4, 2, 4], ![4, 2, 4, 2]]

theorem log2fuel_eq (n : ℕ) : ∀ fuel, n ≤ fuel → log2fuel fuel n = Nat.log2 n := by
  induction n using Nat.strong_induction_on with
  | _ n ih =>
    intro fuel hf
    match fuel with
    | 0 =>
      interval_cases n
      simp [Nat.log2, log2fuel]
    | f + 1 =>
      rw [log2fuel, Nat.log2]
      by_cases h2 : n ≥ 2
      · rw [if_pos h2, if_pos h2, ih (n / 2) (by omega) f (by omega)]
      · rw [if_neg h2, if_neg h2]

theorem nlog2_eq (n : ℕ) : nlog2 n = Nat.log2 n := log2fuel_eq n n le_rfl

theorem mergePairs_length_le : ∀ l : List ℕ, (mergePairs l).1.length ≤ l.length
  | [] => by simp [mergePairs]
  | [x] => by simp [mergePairs]
  | x :: y :: rest => by
    by_cases h : x = y
    · have ih := mergePairs_length_le rest
      simp only [mergePairs, if_pos h, List.length_cons]
      omega
    · have ih := mergePairs_length_le (y :: rest)
      simp only [mergePairs, if_neg h, List.length_cons] at ih ⊢
      omega

theorem compress_line_length (l : List ℕ) (h : l.length ≤ 4) :
    (compress_line l).1.length = 4 := by
  have h1 : (l.filter (fun v => v ≠ 0)).length ≤ l.length := List.length_filter_le _ _
  have h2 := mergePairs_length_le (l.filter (fun v => v ≠ 0))
  simp only [compress_line, List.length_append, List.length_replicate]
  omega

theorem leftRes_length (l : List ℕ) (h : l.length = 4) : (leftRes l).length = 4 :=
  compress_line_length l (by omega)

theorem rightRes_length (l : List ℕ) (h : l.length = 4) : (rightRes l).length = 4 := by
  simp only [rightRes, List.length_reverse]
  exact compress_line_length l.reverse (by simp [h])

theorem list4_eq (l : List ℕ) (h : l.length = 4) :
    l = [lget l 0, lget l 1, lget l 2, lget l 3] := by
  match l, h with
  | [a, b, c, d], _ => rfl

theorem lget_rowList (b : Board) (r c : Fin 4) : lget (rowList b r) c = b r c := by
  fin_cases c <;> rfl

theorem lget_colList (b : Board) (r c : Fin 4) : lget (colList b c) r = b r c := by
  fin_cases r <;> rfl

theorem colList_colsMap (f : List ℕ → List ℕ) (b : Board)
    (hf : ∀ l : List ℕ, l.length = 4 → (f l).length = 4) (c : Fin 4) :
    colList (colsMap f b) c = f (colList b c) := by
  have h4 : (f (colList b c)).length = 4 := hf _ rfl
  rw [list4_eq (f (colList b c)) h4]
  rfl

theorem rowList_rowsMap (f : List ℕ → List ℕ) (b : Board)
    (hf : ∀ l : List ℕ, l.length = 4 → (f l).length = 4) (r : Fin 4) :
    rowList (rowsMap f b) r = f (rowList b r) := by
  have h4 : (f (rowList b r)).length = 4 := hf _ rfl
  rw [list4_eq (f (rowList b r)) h4]
  rfl

theorem colsMap_eq_iff (f : List ℕ → List ℕ) (b : Board)
    (hf : ∀ l : List ℕ, l.length = 4 → (f l).length = 4) :
    colsMap f b = b ↔ ∀ c : Fin 4, f (colList b c) = colList b c := by
  constructor
  · intro h c
    rw [← colList_colsMap f b hf c, h]
  · intro h
    funext r c
    show lget (f (colList b c)) r = b r c
    rw [h c, lget_colList]

theorem rowsMap_eq_iff (f : List ℕ → List ℕ) (b : Board)
    (hf : ∀ l : List ℕ, l.length = 4 → (f l).length = 4) :
    rowsMap f b = b ↔ ∀ r : Fin 4, f (rowList b r) = rowList b r := by
  constructor
  · intro h r
    rw [← rowList_rowsMap f b hf r, h]
  · intro h
    funext r c
    show lget (f (rowList b r)) c = b r c
    rw [h r, lget_rowList]

theorem movedCols_iff (f : List ℕ → List ℕ) (b : Board)
    (hf : ∀ l : List ℕ, l.length = 4 → (f l).length = 4) :
    movedCols f b = true ↔ colsMap f b ≠ b := by
  rw [movedCols, decide_eq_true_iff, Ne, colsMap_eq_iff f b hf, not_forall]

theorem movedRows_iff (f : List ℕ → List ℕ) (b : Board)
    (hf : ∀ l : List ℕ, l.length = 4 → (f l).length = 4) :
    movedRows f b = true ↔ rowsMap f b ≠ b := by
  rw [movedRows, decide_eq_true_iff, Ne, rowsMap_eq_iff f b hf, not_forall]

/-- C6: the `changed` flag of `simulate_move` is `true` exactly when the
returned board differs from the input board, for every board and direction. -/
theorem changed_iff_board_ne (b : Board) (dir : ℕ) :
    (simulate_move b dir).2.2 = true ↔ (simulate_move b dir).1 ≠ b := by
  rcases dir with _ | _ | _ | _ | d
  · simpa [simulate_move] using movedCols_iff leftRes b leftRes_length
  · simpa [simulate_move] using movedCols_iff rightRes b rightRes_length
  · simpa [simulate_move] using movedRows_iff leftRes b leftRes_length
  · simpa [simulate_move] using movedRows_iff rightRes b rightRes_length
  · simp [simulate_move]

/-- C5: a Right move transforms each row into the reversal of the left-slide
of the reversed row, and its score is the sum of the reversed rows' left-slide
merge scores. -/
theorem right_is_mirrored_left (b : Board) (r : Fin 4) :
    rowList ((simulate_move b 3).1) r = ((compress_line (rowList b r).reverse).1).reverse ∧
    (simulate_move b 3).2.1 =
      (compress_line (rowList b 0).reverse).2 + (compress_line (rowList b 1).reverse).2 +
        (compress_line (rowList b 2).reverse).2 + (compress_line (rowList b 3).reverse).2 := by
  constructor
  · have h := rowList_rowsMap rightRes b rightRes_length r
    simpa [simulate_move, rightRes] using h
  · rfl

theorem mergePairs_mem : ∀ l : List ℕ, ∀ y ∈ (mergePairs l).1,
    y ∈ l ∨ ∃ x ∈ l, y = x * 2 % 65536
  | [] => by simp [mergePairs]
  | [x] => by simp [mergePairs]
  | x :: y0 :: rest => by
    intro y hy
    by_cases h : x = y0
    · simp only [mergePairs, if_pos h, List.mem_cons] at hy
      rcases hy with rfl | hy
      · exact Or.inr ⟨x, by simp, rfl⟩
      · rcases mergePairs_mem rest y hy with h1 | ⟨x1, hx1, he⟩
        · exact Or.inl (by simp [h1])
        · exact Or.inr ⟨x1, by simp [hx1], he⟩
    · simp only [mergePairs, if_neg h, List.mem_cons] at hy
      rcases hy with rfl | hy
      · exact Or.inl (by simp)
      · rcases mergePairs_mem (y0 :: rest) y hy with h1 | ⟨x1, hx1, he⟩
        · exact Or.inl (by simp [List.mem_cons] at h1 ⊢; tauto)
        · refine Or.inr ⟨x1, ?_, he⟩
          simp [List.mem_cons] at hx1 ⊢
          tauto

/-- C2 (amended): there is no rank-15 cap in `compress_line`; merges double
the face value in wrapping 16-bit arithmetic.  For rows whose cells are at
most 16384 or exactly 32768, every slide-result cell is still at most 32768
(two adjacent 32768 tiles merge to the wrapped value 0, not to 32768). -/
theorem compress_result_bounded (l : List ℕ)
    (hx : ∀ x ∈ l, x ≤ 16384 ∨ x = 32768) :
    ∀ y ∈ (compress_line l).1, y ≤ 32768 := by
  intro y hy
  simp only [compress_line, List.mem_append] at hy
  rcases hy with hy | hy
  · rcases mergePairs_mem _ y hy with h1 | ⟨x1, hx1, he⟩
    · have := hx y (List.mem_of_mem_filter h1)
      omega
    · have := hx x1 (List.mem_of_mem_filter hx1)
      rcases this with h2 | h2
      · have : x1 * 2 % 65536 = x1 * 2 := Nat.mod_eq_of_lt (by omega)
        omega
      · subst h2
        simp at he
        omega
  · have : y = 0 := List.eq_of_mem_replicate hy
    omega

/-- C2 (counterexample): two adjacent 32768 tiles are not merged into a
rank-15-capped 32768 tile; the u16 doubling wraps to 0 and the merge score
contribution is 0. -/
theorem compress_no_cap_counterexample :
    (compress_line [32768, 32768, 0, 0]).1 = [0, 0, 0, 0] ∧
    (compress_line [32768, 32768, 0, 0]).1.getD 0 0 ≠ 32768 ∧
    (compress_line [32768, 32768, 0, 0]).2 = 0 := by
  refine ⟨by decide, by decide, ?_⟩
  show ((65536 % 65536 : ℕ) : ℚ) + 0 = 0
  norm_num

/-- Witness for `compress_result_bounded` at the concrete row
`[4, 4, 32768, 16384]`. -/
theorem compress_result_bounded_witness :
    (∀ x ∈ [4, 4, 32768, 16384], x ≤ 16384 ∨ x = 32768) ∧
    ∀ y ∈ (compress_line [4, 4, 32768, 16384]).1, y ≤ 32768 :=
  ⟨by decide, compress_result_bounded [4, 4, 32768, 16384] (by decide)⟩

theorem filter_ne_zero_sum : ∀ l : List ℕ,
    (l.filter (fun v => decide (v ≠ 0))).sum = l.sum := by
  intro l
  induction l with
  | nil => rfl
  | cons x xs ih =>
    by_cases h : x = 0
    · subst h
      rw [List.filter_cons_of_neg (by simp)]
      simpa using ih
    · rw [List.filter_cons_of_pos (by simp [h]), List.sum_cons, List.sum_cons, ih]

theorem mergePairs_sum : ∀ l : List ℕ, (∀ x ∈ l, x ≤ 16384) →
    (mergePairs l).1.sum = l.sum
  | [] => by simp [mergePairs]
  | [x] => by simp [mergePairs]
  | x :: y0 :: rest => by
    intro hx
    by_cases h : x = y0
    · have ih := mergePairs_sum rest (fun z hz => hx z (by simp [hz]))
      have hxle := hx x (by simp)
      have hm : x * 2 % 65536 = x * 2 := Nat.mod_eq_of_lt (by omega)
      simp only [mergePairs, if_pos h, List.sum_cons, ih, hm]
      omega
    · have ih := mergePairs_sum (y0 :: rest) (fun z hz => hx z (by simp [List.mem_cons] at hz ⊢; tauto))
      simp only [mergePairs, if_neg h, List.sum_cons] at ih ⊢
      omega

theorem compress_line_sum (l : List ℕ) (hx : ∀ x ∈ l, x ≤ 16384) :
    (compress_line l).1.sum = l.sum := by
  simp only [compress_line, List.sum_append]
  rw [mergePairs_sum _ (fun z hz => hx z (List.mem_of_mem_filter hz)), filter_ne_zero_sum]
  simp [List.sum_replicate]

theorem leftRes_sum (l : List ℕ) (hx : ∀ x ∈ l, x ≤ 16384) :
    (leftRes l).sum = l.sum := compress_line_sum l hx

theorem rightRes_sum (l : List ℕ) (hx : ∀ x ∈ l, x ≤ 16384) :
    (rightRes l).sum = l.sum := by
  rw [rightRes, List.sum_reverse, compress_line_sum l.reverse
    (fun z hz => hx z (List.mem_reverse.mp hz)), List.sum_reverse]

theorem list4_sum (l : List ℕ) (h : l.length = 4) :
    l.sum = lget l 0 + lget l 1 + lget l 2 + lget l 3 := by
  match l, h with
  | [a, b, c, d], _ =>
    show a + (b + (c + (d + 0))) = a + b + c + d
    omega

theorem sumBoard_eq_cols (b : Board) :
    sumBoard b = (colList b 0).sum + (colList b 1).sum +
      (colList b 2).sum + (colList b 3).sum := by
  show (b 0 0 + (b 0 1 + (b 0 2 + (b 0 3 + 0)))) + (b 1 0 + (b 1 1 + (b 1 2 + (b 1 3 + 0)))) +
      (b 2 0 + (b 2 1 + (b 2 2 + (b 2 3 + 0)))) + (b 3 0 + (b 3 1 + (b 3 2 + (b 3 3 + 0)))) =
    (b 0 0 + (b 1 0 + (b 2 0 + (b 3 0 + 0)))) + (b 0 1 + (b 1 1 + (b 2 1 + (b 3 1 + 0)))) +
      (b 0 2 + (b 1 2 + (b 2 2 + (b 3 2 + 0)))) + (b 0 3 + (b 1 3 + (b 2 3 + (b 3 3 + 0))))
  omega

theorem sumBoard_rowsMap (f : List ℕ → List ℕ) (b : Board)
    (hf : ∀ l : List ℕ, l.length = 4 → (f l).length = 4)
    (hs : ∀ r : Fin 4, (f (rowList b r)).sum = (rowList b r).sum) :
    sumBoard (rowsMap f b) = sumBoard b := by
  unfold sumBoard
  rw [rowList_rowsMap f b hf 0, rowList_rowsMap f b hf 1, rowList_rowsMap f b hf 2,
    rowList_rowsMap f b hf 3, hs 0, hs 1, hs 2, hs 3]

theorem sumBoard_colsMap (f : List ℕ → List ℕ) (b : Board)
    (hf : ∀ l : List ℕ, l.length = 4 → (f l).length = 4)
    (hs : ∀ c : Fin 4, (f (colList b c)).sum = (colList b c).sum) :
    sumBoard (colsMap f b) = sumBoard b := by
  rw [sumBoard_eq_cols, sumBoard_eq_cols b, colList_colsMap f b hf 0, colList_colsMap f b hf 1,
    colList_colsMap f b hf 2, colList_colsMap f b hf 3, hs 0, hs 1, hs 2, hs 3]

theorem mergePairs_score : ∀ l : List ℕ,
    (mergePairs l).2 = ((mergedOutputs l).map (fun n => (n : ℚ))).sum
  | [] => by simp [mergePairs, mergedOutputs]
  | [x] => by simp [mergePairs, mergedOutputs]
  | x :: y0 :: rest => by
    by_cases h : x = y0
    · simp [mergePairs, mergedOutputs, if_pos h, mergePairs_score rest]
    · simp [mergePairs, mergedOutputs, if_neg h, mergePairs_score (y0 :: rest)]

theorem compress_line_score (l : List ℕ) :
    (compress_line l).2 = lineMergeScore l := by
  simp only [compress_line, lineMergeScore, mergePairs_score]

theorem mem_line4_le {b : Board} (hb : ∀ r c : Fin 4, b r c ≤ 16384) :
    (∀ i : Fin 4, ∀ x ∈ rowList b i, x ≤ 16384) ∧
    (∀ i : Fin 4, ∀ x ∈ colList b i, x ≤ 16384) := by
  constructor <;> intro i x hx <;>
    simp only [rowList, colList, List.mem_cons, List.not_mem_nil, or_false] at hx <;>
    rcases hx with rfl | rfl | rfl | rfl <;> apply hb

/-- C10: for boards whose cells are all at most 16384, every move conserves
the total of the face values, and the returned score delta is the sum of the
face values of the merged result tiles of the slid lines. -/
theorem move_conserves_sum (b : Board) (hb : ∀ r c : Fin 4, b r c ≤ 16384) (dir : ℕ) :
    sumBoard ((simulate_move b dir).1) = sumBoard b ∧
    (simulate_move b dir).2.1 = moveScoreSpec b dir := by
  obtain ⟨hrow, hcol⟩ := mem_line4_le hb
  have hrrev : ∀ i : Fin 4, ∀ x ∈ (rowList b i).reverse, x ≤ 16384 :=
    fun i x hx => hrow i x (List.mem_reverse.mp hx)
  have hcrev : ∀ i : Fin 4, ∀ x ∈ (colList b i).reverse, x ≤ 16384 :=
    fun i x hx => hcol i x (List.mem_reverse.mp hx)
  rcases dir with _ | _ | _ | _ | d
  · constructor
    · exact sumBoard_colsMap leftRes b leftRes_length (fun c => leftRes_sum _ (hcol c))
    · show (compress_line (colList b 0)).2 + (compress_line (colList b 1)).2 +
          (compress_line (colList b 2)).2 + (compress_line (colList b 3)).2 = _
      rw [compress_line_score, compress_line_score, compress_line_score, compress_line_score]
      rfl
  · constructor
    · exact sumBoard_colsMap rightRes b rightRes_length (fun c => rightRes_sum _ (hcol c))
    · show (compress_line (colList b 0).reverse).2 + (compress_line (colList b 1).reverse).2 +
          (compress_line (colList b 2).reverse).2 + (compress_line (colList b 3).reverse).2 = _
      rw [compress_line_score, compress_line_score, compress_line_score, compress_line_score]
      rfl
  · constructor
    · exact sumBoard_rowsMap leftRes b leftRes_length (fun r => leftRes_sum _ (hrow r))
    · show (compress_line (rowList b 0)).2 + (compress_line (rowList b 1)).2 +
          (compress_line (rowList b 2)).2 + (compress_line (rowList b 3)).2 = _
      rw [compress_line_score, compress_line_score, compress_line_score, compress_line_score]
      rfl
  · constructor
    · exact sumBoard_rowsMap rightRes b rightRes_length (fun r => rightRes_sum _ (hrow r))
    · show (compress_line (rowList b 0).reverse).2 + (compress_line (rowList b 1).reverse).2 +
          (compress_line (rowList b 2).reverse).2 + (compress_line (rowList b 3).reverse).2 = _
      rw [compress_line_score, compress_line_score, compress_line_score, compress_line_score]
      rfl
  · exact ⟨rfl, rfl⟩

/-- Witness for `move_conserves_sum` at `wBoard` moving Left. -/
theorem move_conserves_sum_witness :
    (∀ r c : Fin 4, wBoard r c ≤ 16384) ∧
    (sumBoard ((simulate_move wBoard 2).1) = sumBoard wBoard ∧
      (simulate_move wBoard 2).2.1 = moveScoreSpec wBoard 2) :=
  ⟨by decide, move_conserves_sum wBoard (by decide) 2⟩

/-- C7: a transposition-table entry is only ever used when its stored depth
is at least the requested depth, and `search_ranked_moves` clears the table
at the start of every top-level call, so its result never depends on the
table contents left by a previous call. -/
theorem tt_reuse_discipline :
    (∀ (tt : TT) (h depth : ℕ) (s : ℚ), ttGet tt h depth = some s →
      ∃ d : ℕ, ttFind tt h = some (d, s) ∧ depth ≤ d) ∧
    (∀ (b : Board) (depth : ℕ) (tt1 tt2 : TT),
      search_ranked_moves b depth tt1 = search_ranked_moves b depth tt2) := by
  constructor
  · intro tt h depth s hget
    unfold ttGet at hget
    rcases hfind : ttFind tt h with _ | ⟨d, s0⟩
    · rw [hfind] at hget
      exact absurd hget (by simp)
    · rw [hfind] at hget
      dsimp only at hget
      by_cases hd : d ≥ depth
      · rw [if_pos hd] at hget
        refine ⟨d, ?_, hd⟩
        injection hget with h1
        rw [h1]
      · rw [if_neg hd] at hget
        exact absurd hget (by simp)
  · intro b depth tt1 tt2
    rfl

/-- Witness for `tt_reuse_discipline`: a stored entry of depth 2 read at
requested depth 1, and a top-level search run against two different initial
tables. -/
theorem tt_reuse_discipline_witness :
    (∃ d : ℕ, ttFind [(99, 2, (7 : ℚ))] 99 = some (d, 7) ∧ 1 ≤ d) ∧
    search_ranked_moves fullBoard 1 [(99, 2, (7 : ℚ))] = search_ranked_moves fullBoard 1 [] :=
  ⟨tt_reuse_discipline.1 [(99, 2, (7 : ℚ))] 99 1 7 rfl,
   tt_reuse_discipline.2 fullBoard 1 [(99, 2, (7 : ℚ))] []⟩

theorem searchLoop_map_snd (b : Board) (depth : ℕ) : ∀ (ds : List ℕ) (tt : TT),
    ((searchLoop b depth ds tt).1).map Prod.snd =
      ds.filter (fun d => (simulate_move b d).2.2)
  | [], tt => by simp [searchLoop]
  | d :: ds, tt => by
    by_cases h : (simulate_move b d).2.2
    · simp [searchLoop, h, List.filter_cons, searchLoop_map_snd b depth ds]
    · simp [searchLoop, h, List.filter_cons, searchLoop_map_snd b depth ds]

/-- C9: for every board, depth and initial table, `search_ranked_moves`
returns as many entries as there are directions (tried in the fixed order Up,
Down, Left, Right) that change the board, its entries' directions are exactly
those legal directions, and its entries are sorted in descending score order;
and for a completely full board on which no direction changes any row or
column it returns no entries at all. -/
theorem ranked_moves_count_sorted :
    (∀ (b : Board) (depth : ℕ) (tt : TT),
      (search_ranked_moves b depth tt).length = (legalDirs b).length ∧
      ((search_ranked_moves b depth tt).map Prod.snd).Perm (legalDirs b) ∧
      (search_ranked_moves b depth tt).Pairwise (fun x y => y.1 ≤ x.1)) ∧
    search_ranked_moves fullBoard 1 [] = [] := by
  constructor
  · intro b depth tt
    have hperm : (search_ranked_moves b depth tt).Perm (searchLoop b depth [0, 1, 2, 3] []).1 :=
      List.perm_insertionSort dsc _
    have hsnd : ((searchLoop b depth [0, 1, 2, 3] []).1).map Prod.snd = legalDirs b :=
      searchLoop_map_snd b depth [0, 1, 2, 3] []
    refine ⟨?_, ?_, ?_⟩
    · have h2 : (searchLoop b depth [0, 1, 2, 3] []).1.length = (legalDirs b).length := by
        rw [← hsnd, List.length_map]
      rw [hperm.length_eq, h2]
    · exact (hperm.map Prod.snd).trans (hsnd ▸ List.Perm.refl _)
    · exact List.sorted_insertionSort dsc (searchLoop b depth [0, 1, 2, 3] []).1
  · decide

/-- C8: on a transposition-table miss, a chance node with no empty cell
returns the static evaluation, and a chance node with at least one empty cell
returns the spawn loop's 0.9/0.1-weighted total over the selected cells
divided by the number of selected cells. -/
theorem chance_node_value (b : Board) (depth : ℕ) (tt : TT)
    (hmiss : ttGet tt (board_hash b) (depth + 1) = none) :
    (emptyCells b = [] → (expectimax b (depth + 1) false tt).1 = evaluate b) ∧
    (emptyCells b ≠ [] →
      (expectimax b (depth + 1) false tt).1 =
        (chanceLoop (fun nb tt1 => expectimax nb depth true tt1) b (chanceCells b) 0 tt).1 /
          ((chanceCells b).length : ℚ)) := by
  constructor
  · intro he
    simp only [expectimax, hmiss, he]
    rfl
  · intro he
    have hne : (emptyCells b).isEmpty = false := by
      rcases hne : emptyCells b with _ | ⟨p, rest⟩
      · exact absurd hne he
      · rfl
    simp only [expectimax, hmiss, hne]
    rfl

/-- Witness for `chance_node_value` at `wBoard` with depth 1 and an empty
table. -/
theorem chance_node_value_witness :
    (ttGet [] (board_hash wBoard) (0 + 1) = none ∧ emptyCells wBoard ≠ []) ∧
    ((emptyCells wBoard = [] → (expectimax wBoard (0 + 1) false []).1 = evaluate wBoard) ∧
      (emptyCells wBoard ≠ [] →
        (expectimax wBoard (0 + 1) false []).1 =
          (chanceLoop (fun nb tt1 => expectimax nb 0 true tt1) wBoard (chanceCells wBoard) 0 []).1 /
            ((chanceCells wBoard).length : ℚ))) :=
  ⟨⟨rfl, by decide⟩, chance_node_value wBoard 0 [] rfl⟩

theorem searchLoop_zero (b : Board) : ∀ (ds : List ℕ) (tt : TT),
    searchLoop b 0 ds tt =
      ((ds.filter (fun d => (simulate_move b d).2.2)).map
        (fun d => (evaluate (simulate_move b d).1 + (simulate_move b d).2.1, d)), tt)
  | [], tt => by simp [searchLoop]
  | d :: ds, tt => by
    by_cases h : (simulate_move b d).2.2
    · simp [searchLoop, h, List.filter_cons, expectimax, searchLoop_zero b ds tt]
    · simp [searchLoop, h, List.filter_cons, searchLoop_zero b ds tt]

/-- C1 (amended): no adaptive-depth adjustment exists; `search_ranked_moves`
searches every legal move at exactly the caller-supplied depth, whatever the
count of distinct non-zero ranks.  In particular at requested depth 0 each
legal move's score is the static evaluation of its child plus the move's
merge score. -/
theorem search_depth_unadjusted (b : Board) (tt : TT) :
    search_ranked_moves b 0 tt =
      List.insertionSort dsc ((legalDirs b).map
        (fun d => (evaluate (simulate_move b d).1 + (simulate_move b d).2.1, d))) := by
  show List.insertionSort dsc (searchLoop b 0 [0, 1, 2, 3] []).1 = _
  rw [searchLoop_zero b [0, 1, 2, 3] []]
  rfl

theorem allCells_nodup : allCells.Nodup := by decide

theorem emptyCells_nodup (b : Board) : (emptyCells b).Nodup :=
  allCells_nodup.filter _

theorem scoredCells_nodup (b : Board) : (scoredCells b).Nodup := by
  refine List.Nodup.map_on ?_ (emptyCells_nodup b)
  rintro ⟨p1, p2⟩ hp ⟨q1, q2⟩ hq h
  simp only [Prod.mk.injEq] at h ⊢
  exact ⟨h.2.1, h.2.2⟩

theorem mem_scoredCells {b : Board} {t : ℤ × ℕ × ℕ} :
    t ∈ scoredCells b ↔ ∃ p ∈ emptyCells b, t = (-(adjCount b p.1 p.2 : ℤ), p.1, p.2) := by
  constructor
  · intro ht
    obtain ⟨p, hp, he⟩ := List.mem_map.mp ht
    exact ⟨p, hp, he.symm⟩
  · rintro ⟨p, hp, rfl⟩
    exact List.mem_map.mpr ⟨p, hp, rfl⟩

theorem sortedScored_perm (b : Board) : (sortedScored b).Perm (scoredCells b) :=
  List.perm_insertionSort _ _

theorem sortedScored_pairwise (b : Board) : (sortedScored b).Pairwise ttleProp :=
  List.sorted_insertionSort _ _

theorem scoredCells_key {b : Board} {t : ℤ × ℕ × ℕ} (ht : t ∈ scoredCells b) :
    t = (-(adjCount b t.2.1 t.2.2 : ℤ), t.2.1, t.2.2) ∧ (t.2.1, t.2.2) ∈ emptyCells b := by
  obtain ⟨p, hp, rfl⟩ := mem_scoredCells.mp ht
  exact ⟨rfl, hp⟩

theorem mem_take_or_drop {α : Type} (l : List α) (n : ℕ) (x : α) (hx : x ∈ l) :
    x ∈ l.take n ∨ x ∈ l.drop n := by
  rw [← List.take_append_drop n l] at hx
  exact List.mem_append.mp hx

theorem sortedScored_cross {b : Board} {x y : ℤ × ℕ × ℕ}
    (hx : x ∈ (sortedScored b).take MAX_CHANCE_CELLS)
    (hy : y ∈ (sortedScored b).drop MAX_CHANCE_CELLS) : ttleProp x y := by
  have hp := sortedScored_pairwise b
  rw [← List.take_append_drop MAX_CHANCE_CELLS (sortedScored b)] at hp
  exact (List.pairwise_append.mp hp).2.2 x hx y hy

theorem mem_chanceCells_key {b : Board} {p : ℕ × ℕ}
    (hlen : (emptyCells b).length > MAX_CHANCE_CELLS) (hp : p ∈ chanceCells b) :
    (-(adjCount b p.1 p.2 : ℤ), p.1, p.2) ∈ (sortedScored b).take MAX_CHANCE_CELLS := by
  rw [chanceCells, if_pos hlen] at hp
  obtain ⟨t, ht, hproj⟩ := List.mem_map.mp hp
  have hts : t ∈ scoredCells b :=
    (sortedScored_perm b).subset (List.mem_of_mem_take ht)
  obtain ⟨hkey, _⟩ := scoredCells_key hts
  rw [hkey] at ht
  rw [← hproj]
  exact ht

theorem key_take_mem_chanceCells {b : Board} {p : ℕ × ℕ}
    (hlen : (emptyCells b).length > MAX_CHANCE_CELLS)
    (hk : (-(adjCount b p.1 p.2 : ℤ), p.1, p.2) ∈ (sortedScored b).take MAX_CHANCE_CELLS) :
    p ∈ chanceCells b := by
  rw [chanceCells, if_pos hlen]
  exact List.mem_map.mpr ⟨_, hk, rfl⟩

/-- C3 (amended): when the cap forces pruning, the enumeration is restricted
to the empty cells with the MOST occupied orthogonal neighbors: every
selected cell has at least as many occupied orthogonal neighbors as every
non-selected empty cell (the sort key is the negated neighbor count). -/
theorem chance_cells_most_neighbors (b : Board)
    (hlen : (emptyCells b).length > MAX_CHANCE_CELLS) :
    ∀ p ∈ chanceCells b, ∀ q ∈ emptyCells b, q ∉ chanceCells b →
      adjCount b q.1 q.2 ≤ adjCount b p.1 p.2 := by
  intro p hp q hq hqn
  have hkp := mem_chanceCells_key hlen hp
  have hkq : (-(adjCount b q.1 q.2 : ℤ), q.1, q.2) ∈ sortedScored b :=
    (sortedScored_perm b).mem_iff.mpr (mem_scoredCells.mpr ⟨q, hq, rfl⟩)
  have hkqd : (-(adjCount b q.1 q.2 : ℤ), q.1, q.2) ∈ (sortedScored b).drop MAX_CHANCE_CELLS := by
    rcases mem_take_or_drop _ _ _ hkq with h | h
    · exact absurd (key_take_mem_chanceCells hlen h) hqn
    · exact h
  have hcross := sortedScored_cross hkp hkqd
  unfold ttleProp at hcross
  dsimp only at hcross
  omega

/-- Witness for `chance_cells_most_neighbors` at the 13-empties board `B3`. -/
theorem chance_cells_most_neighbors_witness :
    (emptyCells B3).length > MAX_CHANCE_CELLS ∧
    (∀ p ∈ chanceCells B3, ∀ q ∈ emptyCells B3, q ∉ chanceCells B3 →
      adjCount B3 q.1 q.2 ≤ adjCount B3 p.1 p.2) :=
  ⟨by decide, chance_cells_most_neighbors B3 (by decide)⟩

/-- C3 (counterexample): on `B3` the cap is exceeded, but the selected cells
are not the ones with the fewest occupied neighbors: the selected cell (0,1)
has 3 occupied neighbors while the non-selected empty cell (3,3) has 0. -/
theorem chance_cells_not_fewest_counterexample :
    (emptyCells B3).length > MAX_CHANCE_CELLS ∧
    ¬ (∀ p ∈ chanceCells B3, ∀ q ∈ emptyCells B3, q ∉ chanceCells B3 →
        adjCount B3 p.1 p.2 ≤ adjCount B3 q.1 q.2) := by
  constructor
  · decide
  · decide

theorem pair_subperm {α : Type} [DecidableEq α] {l : List α} {x y : α}
    (hx : x ∈ l) (hy : y ∈ l) (hxy : x ≠ y) : List.Subperm [x, y] l := by
  have h1 : l.Perm (x :: l.erase x) := List.perm_cons_erase hx
  have hy1 : y ∈ l.erase x := (List.mem_erase_of_ne (Ne.symm hxy)).mpr hy
  have h2 : (l.erase x).Perm (y :: (l.erase x).erase y) := List.perm_cons_erase hy1
  have hsub : List.Sublist [x, y] (x :: y :: (l.erase x).erase y) :=
    List.Sublist.cons₂ x (List.Sublist.cons₂ y (List.nil_sublist _))
  have hperm : l.Perm (x :: y :: (l.erase x).erase y) := h1.trans (h2.cons x)
  exact hsub.subperm.trans hperm.symm.subperm

/-- C4: when the cap forces a choice, an empty cell with three occupied
orthogonal neighbors is selected whenever a zero-neighbor empty cell is, its
sort key precedes the isolated cell's key in the sorted selection order, and
among empty cells with equal neighbor counts the selection order is the
row-major scan order — the choice is reproducible. -/
theorem exposed_cell_selected_first (b : Board) (ra ca rb cb : ℕ)
    (hlen : (emptyCells b).length > MAX_CHANCE_CELLS)
    (ha : (ra, ca) ∈ emptyCells b) (ha3 : adjCount b ra ca = 3)
    (hb : (rb, cb) ∈ emptyCells b) (hb0 : adjCount b rb cb = 0) :
    ((rb, cb) ∈ chanceCells b → (ra, ca) ∈ chanceCells b) ∧
    List.Sublist [(-(adjCount b ra ca : ℤ), ra, ca), (-(adjCount b rb cb : ℤ), rb, cb)] (sortedScored b) ∧
    (∀ r1 c1 r2 c2 : ℕ, (r1, c1) ∈ emptyCells b → (r2, c2) ∈ emptyCells b →
      adjCount b r1 c1 = adjCount b r2 c2 → (r1 < r2 ∨ (r1 = r2 ∧ c1 < c2)) →
      List.Sublist [(-(adjCount b r1 c1 : ℤ), r1, c1), (-(adjCount b r2 c2 : ℤ), r2, c2)]
        (sortedScored b)) := by
  refine ⟨?_, ?_, ?_⟩
  · intro hbm
    have hkb := mem_chanceCells_key hlen hbm
    have hka : (-(adjCount b ra ca : ℤ), ra, ca) ∈ sortedScored b :=
      (sortedScored_perm b).mem_iff.mpr (mem_scoredCells.mpr ⟨(ra, ca), ha, rfl⟩)
    rcases mem_take_or_drop _ MAX_CHANCE_CELLS _ hka with h | h
    · exact key_take_mem_chanceCells hlen h
    · exfalso
      have hcross := sortedScored_cross hkb h
      unfold ttleProp at hcross
      dsimp only at hcross
      omega
  · have hma : (-(adjCount b ra ca : ℤ), ra, ca) ∈ scoredCells b :=
      mem_scoredCells.mpr ⟨(ra, ca), ha, rfl⟩
    have hmb : (-(adjCount b rb cb : ℤ), rb, cb) ∈ scoredCells b :=
      mem_scoredCells.mpr ⟨(rb, cb), hb, rfl⟩
    have hne : (-(adjCount b ra ca : ℤ), ra, ca) ≠ (-(adjCount b rb cb : ℤ), rb, cb) := by
      rw [ha3, hb0]
      intro h
      simp only [Prod.mk.injEq] at h
      omega
    have hab : ttleProp (-(adjCount b ra ca : ℤ), ra, ca) (-(adjCount b rb cb : ℤ), rb, cb) := by
      unfold ttleProp
      dsimp only
      omega
    exact List.pair_sublist_insertionSort' hab
      (pair_subperm hma hmb hne)
  · intro r1 c1 r2 c2 h1 h2 hadj hlt
    have hm1 : (-(adjCount b r1 c1 : ℤ), r1, c1) ∈ scoredCells b :=
      mem_scoredCells.mpr ⟨(r1, c1), h1, rfl⟩
    have hm2 : (-(adjCount b r2 c2 : ℤ), r2, c2) ∈ scoredCells b :=
      mem_scoredCells.mpr ⟨(r2, c2), h2, rfl⟩
    have hne : (-(adjCount b r1 c1 : ℤ), r1, c1) ≠ (-(adjCount b r2 c2 : ℤ), r2, c2) := by
      intro h
      simp only [Prod.mk.injEq] at h
      omega
    have hab : ttleProp (-(adjCount b r1 c1 : ℤ), r1, c1) (-(adjCount b r2 c2 : ℤ), r2, c2) := by
      unfold ttleProp
      dsimp only
      omega
    exact List.pair_sublist_insertionSort' hab
      (pair_subperm hm1 hm2 hne)

/-- Witness for `exposed_cell_selected_first` at `B3` with the 3-neighbor
empty cell (0,1) and the isolated empty cell (3,3). -/
theorem exposed_cell_selected_first_witness :
    ((emptyCells B3).length > MAX_CHANCE_CELLS ∧ (0, 1) ∈ emptyCells B3 ∧
      adjCount B3 0 1 = 3 ∧ (3, 3) ∈ emptyCells B3 ∧ adjCount B3 3 3 = 0) ∧
    (((3, 3) ∈ chanceCells B3 → (0, 1) ∈ chanceCells B3) ∧
      List.Sublist [(-(adjCount B3 0 1 : ℤ), 0, 1), (-(adjCount B3 3 3 : ℤ), 3, 3)] (sortedScored B3) ∧
      (∀ r1 c1 r2 c2 : ℕ, (r1, c1) ∈ emptyCells B3 → (r2, c2) ∈ emptyCells B3 →
        adjCount B3 r1 c1 = adjCount B3 r2 c2 → (r1 < r2 ∨ (r1 = r2 ∧ c1 < c2)) →
        List.Sublist [(-(adjCount B3 r1 c1 : ℤ), r1, c1), (-(adjCount B3 r2 c2 : ℤ), r2, c2)]
          (sortedScored B3))) :=
  ⟨⟨by decide, by decide, by decide, by decide, by decide⟩,
   exposed_cell_selected_first B3 0 1 3 3 (by decide) (by decide) (by decide)
     (by decide) (by decide)⟩

section

attribute [local semireducible] Rat.add Rat.mul Rat.inv Rat.sub

/-- C1 (counterexample): the board `B5` has exactly 5 distinct non-zero tile
ranks, yet the top-level search requested at depth 1 returns a different
ranking than the one requested at depth 3: no effective-depth raise to
`distinct − 2 = 3` happens — the caller-supplied depth is used as-is. -/
theorem adaptive_depth_counterexample :
    distinctRanks B5 = 5 ∧
    search_ranked_moves B5 1 [] ≠ search_ranked_moves B5 3 [] := by
  constructor
  · decide
  · decide

end
